import Mathlib

/-!
Verification development for the mp4iter repository: a shallow embedding of
the FourCC codec (src/fourcc.rs), the atom-header codec and dual-stream
reader (src/reader.rs, src/atom/atom_header.rs), the hdlr component-name
decoder (src/atom/atom.rs), the sample-offset reconstructor
(src/offset.rs, src/track/offset.rs) and the track sample iterator
(src/track/track.rs, src/track/sample.rs), together with theorems settling
the specification claims.

Machine integers are modelled as Nat with explicit wrap-around (mod 2 pow 64)
where the Rust source performs u64 arithmetic that can underflow; fallible
Rust paths (Result / panic / read_exact failure) are modelled with Option or
dedicated result inductives.
-/

namespace Mp4Iter

/-! FourCC (src/fourcc.rs). The Rust type is an enum with one variant per
recognized tag plus Custom(String); equality is the derived structural
equality. Bytes are decoded as ISO-8859-1 single-byte characters. -/

inductive FourCC where
  | Ctts | Dinf | Dref | Edts | Elst | Ftyp | Free | Gmhd | Hdlr | Iods
  | Mdat | Mdhd | Mdia | Minf | Moov | Mvhd | Smhd | Stbl | Stco | Co64
  | Sdtp | Stsc | Stsd | Stss | Stsz | Stts | Tkhd | Tmcd | Trak | Tref
  | Udta | Vmhd
  | Custom (s : String)
deriving DecidableEq

/-- Decodes one byte as an ISO-8859-1 code point (Rust: b as char). -/
def byteChar (b : Nat) : Char := Char.ofNat b

/-- Decodes a byte list as an ISO-8859-1 string. -/
def bytesStr (bs : List Nat) : String := String.mk (bs.map byteChar)

/-- FourCC::from_slice (src/fourcc.rs lines 62-108). Matches the raw four
bytes against the recognized tags; note the source has no arm for the bytes
of ctts (and none for free), so those fall through to Custom. Matching the
ISO-8859-1 decoding of the bytes is equivalent to matching the byte
literals because the decoding is injective. -/
def FourCC.from_slice (bs : List Nat) : FourCC :=
  match bytesStr bs with
  | "dinf" => .Dinf
  | "dref" => .Dref
  | "edts" => .Edts
  | "elst" => .Elst
  | "ftyp" => .Ftyp
  | "gmhd" => .Gmhd
  | "hdlr" => .Hdlr
  | "iods" => .Iods
  | "mdat" => .Mdat
  | "mdhd" => .Mdhd
  | "mdia" => .Mdia
  | "minf" => .Minf
  | "moov" => .Moov
  | "mvhd" => .Mvhd
  | "smhd" => .Smhd
  | "sdtp" => .Sdtp
  | "stbl" => .Stbl
  | "stco" => .Stco
  | "stsc" => .Stsc
  | "stsd" => .Stsd
  | "stss" => .Stss
  | "stsz" => .Stsz
  | "stts" => .Stts
  | "tkhd" => .Tkhd
  | "trak" => .Trak
  | "tref" => .Tref
  | "udta" => .Udta
  | "vmhd" => .Vmhd
  | "co64" => .Co64
  | "tmcd" => .Tmcd
  | s => .Custom s

/-- Big-endian byte decomposition of a u32 value (Rust: u32::to_be_bytes). -/
def beBytes4 (v : Nat) : List Nat :=
  [v / 2 ^ 24 % 256, v / 2 ^ 16 % 256, v / 2 ^ 8 % 256, v % 256]

/-- FourCC::from_u32 (src/fourcc.rs lines 110-112). -/
def FourCC.from_u32 (v : Nat) : FourCC := FourCC.from_slice (beBytes4 v)

/-- FourCC::from_str (src/fourcc.rs lines 114-149). Unlike from_slice this
match set does include ctts (and still excludes free). -/
def FourCC.from_str (fourcc : String) : FourCC :=
  match fourcc with
  | "ctts" => .Ctts
  | "dinf" => .Dinf
  | "dref" => .Dref
  | "edts" => .Edts
  | "elst" => .Elst
  | "ftyp" => .Ftyp
  | "gmhd" => .Gmhd
  | "hdlr" => .Hdlr
  | "iods" => .Iods
  | "mdat" => .Mdat
  | "mdhd" => .Mdhd
  | "mdia" => .Mdia
  | "minf" => .Minf
  | "moov" => .Moov
  | "mvhd" => .Mvhd
  | "sdtp" => .Sdtp
  | "smhd" => .Smhd
  | "stbl" => .Stbl
  | "stco" => .Stco
  | "stsc" => .Stsc
  | "stsd" => .Stsd
  | "stss" => .Stss
  | "stsz" => .Stsz
  | "stts" => .Stts
  | "tkhd" => .Tkhd
  | "tmcd" => .Tmcd
  | "trak" => .Trak
  | "tref" => .Tref
  | "udta" => .Udta
  | "vmhd" => .Vmhd
  | "co64" => .Co64
  | s => .Custom s

/-- FourCC::to_str (src/fourcc.rs lines 151-188). -/
def FourCC.to_str : FourCC → String
  | .Ctts => "ctts"
  | .Dinf => "dinf"
  | .Dref => "dref"
  | .Edts => "edts"
  | .Elst => "elst"
  | .Ftyp => "ftyp"
  | .Free => "free"
  | .Gmhd => "gmhd"
  | .Hdlr => "hdlr"
  | .Iods => "iods"
  | .Mdat => "mdat"
  | .Mdhd => "mdhd"
  | .Mdia => "mdia"
  | .Minf => "minf"
  | .Moov => "moov"
  | .Mvhd => "mvhd"
  | .Sdtp => "sdtp"
  | .Smhd => "smhd"
  | .Stbl => "stbl"
  | .Stco => "stco"
  | .Stsc => "stsc"
  | .Stsd => "stsd"
  | .Stss => "stss"
  | .Stsz => "stsz"
  | .Stts => "stts"
  | .Tkhd => "tkhd"
  | .Tmcd => "tmcd"
  | .Trak => "trak"
  | .Tref => "tref"
  | .Udta => "udta"
  | .Vmhd => "vmhd"
  | .Co64 => "co64"
  | .Custom s => s

/-- The CONTAINER constant (src/consts.rs lines 22-31): the eight FourCC
names the walker treats as containers. -/
def CONTAINER : List String :=
  ["moov", "trak", "tref", "edts", "mdia", "minf", "dinf", "stbl"]

/-! Atom header (src/atom/atom_header.rs) and header codec
(Mp4Reader::header, src/reader.rs lines 453-497).

A positioned byte stream is modelled as a byte list together with a Nat
cursor; a read that would pass the end of the list fails (read_exact). -/

/-- Reads n bytes at position pos; fails when fewer than n bytes remain. -/
def readBytesAt (bytes : List Nat) (pos n : Nat) : Option (List Nat) :=
  if pos + n ≤ bytes.length then some ((bytes.drop pos).take n) else none

/-- Big-endian value of a byte list. -/
def beVal (bs : List Nat) : Nat := bs.foldl (fun acc b => acc * 256 + b) 0

/-- Reads an n-byte big-endian unsigned integer at position pos. -/
def readBE (bytes : List Nat) (pos n : Nat) : Option Nat :=
  (readBytesAt bytes pos n).map beVal

/-- The u64 modulus. -/
def U64 : Nat := 2 ^ 64

/-- Wrapping u64 subtraction a - b for a < 2 pow 64 and b ≤ 2 pow 64
(release-mode Rust u64 arithmetic). -/
def wsub64 (a b : Nat) : Nat := (a + U64 - b) % U64

/-- Reinterpretation of a u64 bit pattern as an i64 (Rust: v as i64). -/
def i64OfU64 (v : Nat) : Int := if v < 2 ^ 63 then (v : Int) else (v : Int) - (2 ^ 64 : Int)

/-- AtomHeader (src/atom/atom_header.rs lines 16-36). offset is the stream
position the header was read at; next is the relative offset from the
post-header position to the next sibling (0 for containers). -/
structure AtomHeader where
  atom_size : Nat
  name : FourCC
  offset : Nat
  next : Nat
  size_64bit : Bool
deriving DecidableEq

/-- AtomHeader::header_size (src/atom/atom_header.rs lines 70-86): derived
from the stored 64-bit flag only, never from the magnitude of atom_size. -/
def AtomHeader.header_size (h : AtomHeader) : Nat :=
  if h.size_64bit then 16 else 8

/-- AtomHeader::data_offset (src/atom/atom_header.rs lines 95-97). -/
def AtomHeader.data_offset (h : AtomHeader) : Nat :=
  h.offset + h.header_size

/-- AtomHeader::data_size (src/atom/atom_header.rs lines 101-103); u64
subtraction, modelled with explicit wrap-around. -/
def AtomHeader.data_size (h : AtomHeader) : Nat :=
  wsub64 h.atom_size h.header_size

/-- AtomHeader::is_container (src/atom/atom_header.rs lines 41-43). -/
def AtomHeader.is_container (h : AtomHeader) : Bool :=
  CONTAINER.contains h.name.to_str

/-- AtomHeader::offset_next_abs (src/atom/atom_header.rs lines 116-118). -/
def AtomHeader.offset_next_abs (h : AtomHeader) : Nat :=
  h.offset + h.atom_size

/-- AtomHeader::start and end (src/atom/atom_header.rs lines 45-51). -/
def AtomHeader.start_off (h : AtomHeader) : Nat := h.offset

/-- AtomHeader end offset, offset + atom_size. -/
def AtomHeader.end_off (h : AtomHeader) : Nat := h.offset + h.atom_size

/-- Mp4Reader::header (src/reader.rs lines 453-497): records the current
position as offset, reads the 32-bit size and the FourCC, reads an 8-byte
extended size when the 32-bit size equals 1 (setting the 64-bit flag),
rejects atom_size 0, and computes the relative next offset (0 for
containers, atom_size - header_size with u64 wrap otherwise). Returns the
header and the post-header stream position. -/
def readHeader (bytes : List Nat) (pos : Nat) : Option (AtomHeader × Nat) :=
  match readBE bytes pos 4, readBE bytes (pos + 4) 4 with
  | some size32, some nameVal =>
    let name := FourCC.from_u32 nameVal
    if size32 = 1 then
      match readBE bytes (pos + 8) 8 with
      | some size64 =>
        if size64 = 0 then none
        else some ({ atom_size := size64, name := name, offset := pos,
                     next := if CONTAINER.contains name.to_str then 0 else wsub64 size64 16,
                     size_64bit := true }, pos + 16)
      | none => none
    else if size32 = 0 then none
    else some ({ atom_size := size32, name := name, offset := pos,
                 next := if CONTAINER.contains name.to_str then 0 else wsub64 size32 8,
                 size_64bit := false }, pos + 8)
  | _, _ => none

/-- Mp4Reader::next_header with seek_next = true (src/reader.rs lines
554-570): reads the header, then seeks by next reinterpreted as an i64
(SeekFrom::Current); a seek to a negative position is an error. Returns the
header together with the final stream position. -/
def nextHeader (bytes : List Nat) (pos : Nat) : Option (AtomHeader × Nat) :=
  match readHeader bytes pos with
  | none => none
  | some (hdr, p) =>
    let np : Int := (p : Int) + i64OfU64 hdr.next
    if np < 0 then none else some (hdr, np.toNat)

/-- Mp4Reader::find_header (src/reader.rs lines 578-607): from pos, read a
header, return it (leaving the stream at the data payload) when its FourCC
matches, otherwise seek to the next sibling and repeat while the position
is below the stream length. The loop is bounded by explicit fuel. -/
def findHeader (bytes : List Nat) (target : FourCC) : Nat → Nat → Option (AtomHeader × Nat)
  | 0, _ => none
  | fuel + 1, pos =>
    if pos < bytes.length then
      match readHeader bytes pos with
      | none => none
      | some (hdr, p) =>
        if hdr.name = target then some (hdr, p)
        else
          let np : Int := (p : Int) + i64OfU64 hdr.next
          if np < 0 then none else findHeader bytes target fuel np.toNat
    else none

/-! Moov preload (Mp4Reader::with_capacity, src/reader.rs lines 67-102):
locate the moov header on the file stream, then copy data_size bytes
(the payload after the header) into the in-memory moov stream. -/

/-- The dual reader right after open: the file bytes, the moov header as
read from the file stream, and the in-memory copy of the moov payload. -/
structure Mp4Streams where
  fileBytes : List Nat
  moovHdr : AtomHeader
  moovBytes : List Nat
deriving DecidableEq

/-- Mp4Reader::with_capacity (src/reader.rs lines 67-102): find_header for
moov leaves the file stream at the payload position; the cursor then reads
data_size bytes. Failure to locate moov (or a short payload read) is
MoovReadError. -/
def withCapacity (file : List Nat) : Option Mp4Streams :=
  match findHeader file (FourCC.from_str "moov") (file.length + 1) 0 with
  | some (hdr, p) =>
    match readBytesAt file p hdr.data_size with
    | some payload => some { fileBytes := file, moovHdr := hdr, moovBytes := payload }
    | none => none
  | none => none

/-! Cross-stream synchronization (src/reader.rs lines 123-131, 320-354).
Only the cursor positions and the stored moov header participate, so the
state is the two positions plus the moov header's offset and size. -/

/-- Mutable cursor state of the dual reader. -/
structure RdrState where
  filePos : Nat
  moovPos : Nat
  moovOffset : Nat
  moovSize : Nat
deriving DecidableEq

/-- Result of a synchronization call: the updated state and the returned
position, or a BoundsError carrying (position, min, max). -/
inductive SyncResult where
  | ok (st : RdrState) (pos : Nat)
  | boundsErr (pos min max : Nat)
deriving DecidableEq

/-- Which of the two streams a call targets. -/
inductive Target where
  | file
  | moov
deriving DecidableEq

/-- Mp4Reader::sync_pos (src/reader.rs lines 339-354). For the file target
it calls in_moov_range (lines 320-330), which errors only when the file
position is below the moov offset, then seeks the moov cursor to
file position - moov offset. For the moov target it seeks the file cursor
to moov position + moov offset with no bounds check at all. -/
def syncPos (st : RdrState) (t : Target) : SyncResult :=
  match t with
  | .file =>
    if st.moovOffset ≤ st.filePos then
      .ok { st with moovPos := st.filePos - st.moovOffset } (st.filePos - st.moovOffset)
    else
      .boundsErr st.filePos st.moovOffset (st.moovOffset + st.moovSize)
  | .moov =>
    .ok { st with filePos := st.moovPos + st.moovOffset } (st.moovPos + st.moovOffset)

/-- Mp4Reader::sync_seek (src/reader.rs lines 123-131): seeks the file
stream to the absolute offset, runs bounds_moov (error when the position is
strictly below moov start or strictly above moov end, src/reader.rs lines
778-798), then seeks the moov cursor to the offset minus the moov header
offset. -/
def syncSeek (st : RdrState) (seek_to_abs : Nat) : SyncResult :=
  let st1 : RdrState := { st with filePos := seek_to_abs }
  if seek_to_abs < st.moovOffset ∨ st.moovOffset + st.moovSize < seek_to_abs then
    .boundsErr seek_to_abs st.moovOffset (st.moovOffset + st.moovSize)
  else
    .ok { st1 with moovPos := seek_to_abs - st.moovOffset } seek_to_abs

/-! Sample-table atoms (src/atom_types/stsc.rs, stsz.rs, stts.rs,
stco.rs, co64.rs) and the sample-offset reconstruction arithmetic shared by
Offsets::new (src/offset.rs lines 167-299) and SampleOffsets::new
(src/track/offset.rs lines 47-187). The reconstruction is embedded as a
pure function of the four decoded tables; the stbl-walk that collects the
atoms selects which tables are passed in and is orthogonal to the
expansion arithmetic the claims are about. -/

/-- One stsc table entry (src/atom_types/stsc.rs lines 135-153). -/
structure SampleToChunk where
  first_chunk : Nat
  samples_per_chunk : Nat
  sample_description_id : Nat
deriving DecidableEq

/-- The stsc atom (src/atom_types/stsc.rs lines 13-21): the entry count as
decoded from the file plus the table. -/
structure Stsc where
  no_of_entries : Nat
  sample_to_chunk_table : List SampleToChunk
deriving DecidableEq

/-- Stsc::no_of_samples (src/atom_types/stsc.rs lines 31-74): samples in
the 1-based chunk chunk_index. Early return of the single entry when
no_of_entries is 1; otherwise the windows(2) scan assigns the entry whose
half-open first_chunk range contains chunk_index, and the final check
assigns the last entry to every chunk at or past its first_chunk. -/
def Stsc.no_of_samples (s : Stsc) (chunk_index : Nat) : Option Nat :=
  if s.no_of_entries = 1 ∧ s.sample_to_chunk_table ≠ [] then
    s.sample_to_chunk_table.head?.map (fun stc => stc.samples_per_chunk)
  else
    let fromWindows : Option Nat :=
      (s.sample_to_chunk_table.zip s.sample_to_chunk_table.tail).foldl
        (fun acc c =>
          if c.1.first_chunk ≤ chunk_index ∧ chunk_index < c.2.first_chunk then
            some c.1.samples_per_chunk
          else acc)
        none
    match fromWindows with
    | some n => some n
    | none =>
      match s.sample_to_chunk_table.getLast? with
      | some last => if last.first_chunk ≤ chunk_index then some last.samples_per_chunk else none
      | none => none

/-- Stts::durations (src/atom_types/stts.rs lines 62-66): run-length
expansion of the (sample_count, sample_duration) table. -/
def sttsDurations (table : List (Nat × Nat)) : List Nat :=
  (table.map (fun t => List.replicate t.1 t.2)).flatten

/-- Inner loop of the chunk expansion (src/offset.rs lines 267-274): emit
one offset per sample size, starting at the chunk offset and advancing the
running delta by each sample's size. -/
def offsetsFromSizes (co : Nat) : List Nat → List Nat
  | [] => []
  | s :: rest => co :: offsetsFromSizes (co + s) rest

/-- Per-chunk body of the expansion closure (src/offset.rs lines 250-276)
for 0-based chunk index i with chunk offset co. The source panics when
no_of_samples returns None and panics on the slice sizes index i .. i + n
when it overruns; both panics are modelled as none. Note the slice is
indexed by the chunk index i, not by a cursor of samples consumed so far. -/
def chunkSampleOffsets (stsc : Stsc) (sizes : List Nat) (i co : Nat) : Option (List Nat) :=
  match stsc.no_of_samples (i + 1) with
  | none => none
  | some n =>
    if i + n ≤ sizes.length then some (offsetsFromSizes co ((sizes.drop i).take n))
    else none

/-- The whole chunk loop (src/offset.rs lines 246-281): map the per-chunk
body over the enumerated chunk-offset list and flatten. -/
def expandChunks (stsc : Stsc) (sizes : List Nat) : Nat → List Nat → Option (List Nat)
  | _, [] => some []
  | i, co :: rest =>
    match chunkSampleOffsets stsc sizes i co, expandChunks stsc sizes (i + 1) rest with
    | some xs, some ys => some (xs ++ ys)
    | _, _ => none

/-- An entry of the reconstructed table (Offset, src/offset.rs lines
326-337). The Rust duration field holds seconds_f64 of
duration_ticks / time_scale as a time::Duration; the embedding retains the
exact pair (ticks, effective scale) the value is computed from. -/
structure Offset where
  position : Nat
  size : Nat
  duration_ticks : Nat
  time_scale : Nat
deriving DecidableEq

/-- Offset::new (src/offset.rs lines 345-357) including the zero
time-scale guard: when time_scale_zero_ok is set a zero scale is replaced
by 1. -/
def Offset.new (position size duration_ticks time_scale : Nat) (time_scale_zero_ok : Bool) : Offset :=
  { position := position, size := size, duration_ticks := duration_ticks,
    time_scale := if time_scale_zero_ok ∧ time_scale = 0 then 1 else time_scale }

/-- Truncating three-way zip, mirroring the nested Iterator::zip in
src/offset.rs lines 283-287. -/
def zip3 : List α → List β → List γ → List (α × β × γ)
  | a :: as_, b :: bs, c :: cs => (a, b, c) :: zip3 as_ bs cs
  | _, _, _ => []

/-- The merge step of Offsets::new (src/offset.rs lines 242-298): expand
the chunk offsets to per-sample offsets, then zip the expanded stts
durations, the stsz sizes and the per-sample offsets into Offset records.
The zip silently truncates to the shortest of the three lists. -/
def offsetsNew (stts_table : List (Nat × Nat)) (stsc : Stsc) (sizes : List Nat)
    (chunk_offsets : List Nat) (time_scale : Nat) (time_scale_zero_ok : Bool) :
    Option (List Offset) :=
  (expandChunks stsc sizes 0 chunk_offsets).map (fun smp =>
    (zip3 (sttsDurations stts_table) sizes smp).map (fun t =>
      Offset.new t.2.2 t.2.1 t.1 time_scale time_scale_zero_ok))

/-- Modelled from the spec (section 4.5, Expansion to per-sample offsets):
the flat-cursor expansion the specification describes, in which chunk i
consumes the next n entries of the size list after the entries consumed by
chunks 1 .. i-1. Written only to be compared with expandChunks; it is not
code of the repository. -/
def specFlatExpand (stsc : Stsc) (sizes : List Nat) : Nat → Nat → List Nat → Option (List Nat)
  | _, _, [] => some []
  | i, cursor, co :: rest =>
    match stsc.no_of_samples (i + 1) with
    | none => none
    | some n =>
      if cursor + n ≤ sizes.length then
        match specFlatExpand stsc sizes (i + 1) (cursor + n) rest with
        | some ys => some (offsetsFromSizes co ((sizes.drop cursor).take n) ++ ys)
        | none => none
      else none

/-! The hdlr component-name decoder (Atom::hdlr, src/atom/atom.rs lines
299-355, and bytes2iso8859_1, lines 484-494). The decoder is a pure
function of the bytes remaining in the atom after the fixed fields. -/

/-- Rust char::is_whitespace restricted to the Latin-1 code points that can
arise from single-byte decoding (the Unicode White_Space set below 256). -/
def isRustWhitespace (b : Nat) : Bool :=
  b = 9 ∨ b = 10 ∨ b = 11 ∨ b = 12 ∨ b = 13 ∨ b = 32 ∨ b = 133 ∨ b = 160

/-- bytes2iso8859_1 (src/atom/atom.rs lines 484-494): drop NUL bytes,
decode each byte as ISO-8859-1, trim surrounding whitespace. Computed on
the code-point list; bytesStr turns it into the final string. -/
def iso8859Trimmed (bs : List Nat) : List Nat :=
  (((bs.filter (fun b => b ≠ 0)).dropWhile isRustWhitespace).reverse.dropWhile
    isRustWhitespace).reverse

/-- String form of bytes2iso8859_1. -/
def bytes2iso8859_1 (bs : List Nat) : String := bytesStr (iso8859Trimmed bs)

/-- Outcome of the hdlr component-name decoding: the name, the
MissingHandlerName error, or the panic the source's slice indexing raises. -/
inductive HdlrName where
  | ok (s : String)
  | missingHandlerName
  | panicked
deriving DecidableEq

/-- Component-name logic of Atom::hdlr (src/atom/atom.rs lines 313-350)
as a function of name_vec, the bytes remaining after the fixed fields
(rem = name_vec.length). An empty remainder is MissingHandlerName. When
the first byte c satisfies c ≤ rem the source takes the slice
name_vec[1 .. c + 1], which panics when c + 1 exceeds the length (that is,
exactly when c = rem); otherwise the whole remainder is decoded. -/
def hdlrComponentName (name_vec : List Nat) : HdlrName :=
  match name_vec.head? with
  | none => .missingHandlerName
  | some c =>
    if c ≤ name_vec.length then
      if c + 1 ≤ name_vec.length then
        .ok (bytes2iso8859_1 ((name_vec.drop 1).take c))
      else .panicked
    else .ok (bytes2iso8859_1 name_vec)

/-! Track samples (Track::samples and Track::timestamps,
src/track/track.rs lines 152-185, and Sample::new,
src/track/sample.rs lines 48-69).

The per-sample duration is a time::Duration, an exact quantity that the
iterators only ever add; it is modelled as an Int. Sample::new converts
the target position to i64 (failing at and above 2 pow 63), seeks there and
reads exactly size bytes (read_exact fails past end of file). -/

/-- SampleOffset as consumed by the sample iterator (src/track/offset.rs
lines 214-226) with the duration abstracted to an exact additive value. -/
structure SampleOffset where
  position : Nat
  size : Nat
  duration : Int
deriving DecidableEq

/-- An emitted sample (src/track/sample.rs lines 12-17). -/
structure Sample where
  relative_time : Int
  sample_duration : Int
  bytes : List Nat
deriving DecidableEq

/-- Sample::new (src/track/sample.rs lines 48-69): position must convert
to i64; the reader seeks to it and reads exactly size bytes into an owned
buffer. relative_time is 0 until with_time sets it. -/
def sampleNew (file : List Nat) (o : SampleOffset) : Option Sample :=
  if o.position < 2 ^ 63 ∧ o.position + o.size ≤ file.length then
    some { relative_time := 0, sample_duration := o.duration,
           bytes := (file.drop o.position).take o.size }
  else none

/-- Sample::with_time (src/track/sample.rs lines 73-78). -/
def Sample.with_time (s : Sample) (t : Int) : Sample :=
  { s with relative_time := t }

/-- Track::samples (src/track/track.rs lines 153-170): map over the offset
table, accumulating the relative timestamp (the accumulator advances by
every offset's duration whether or not its read succeeds, since the
timestamp closure runs before the read). Each failed read yields the error
at that position without ending the accumulation. -/
def samplesFrom (file : List Nat) (t : Int) : List SampleOffset → List (Option Sample)
  | [] => []
  | o :: rest =>
    ((sampleNew file o).map (fun s => s.with_time t)) :: samplesFrom file (t + o.duration) rest

/-- Track::samples from the start of the table (relative time 0). -/
def samplesList (file : List Nat) (offs : List SampleOffset) : List (Option Sample) :=
  samplesFrom file 0 offs

/-- Track::timestamps (src/track/track.rs lines 176-185): lazy sequence of
(relative_time, sample_duration) pairs with the same accumulation. -/
def timestampsFrom (t : Int) : List SampleOffset → List (Int × Int)
  | [] => []
  | o :: rest => (t, o.duration) :: timestampsFrom (t + o.duration) rest

/-- Track::timestamps from the start of the table. -/
def timestampsList (offs : List SampleOffset) : List (Int × Int) :=
  timestampsFrom 0 offs

/-- Sum of the durations of a list of sample offsets. -/
def sumDur (offs : List SampleOffset) : Int :=
  (offs.map (fun o => o.duration)).sum

/-! Helper lemmas shared by several claim theorems. -/

/-- Inversion of a successful readHeader: the recorded offset is the read
position, the post-header position is offset plus header size, atom_size 0
was rejected, next is 0 for containers and the wrapped difference for
leaves, and the 64-bit flag is set exactly when the 32-bit size field was
1, in which case atom_size came from the 8-byte extended field. -/
theorem readHeader_spec (bytes : List Nat) (pos : Nat) (hdr : AtomHeader) (p : Nat)
    (h : readHeader bytes pos = some (hdr, p)) :
    hdr.offset = pos ∧ p = pos + hdr.header_size ∧ 1 ≤ hdr.atom_size ∧
    hdr.next = (if hdr.is_container then 0 else wsub64 hdr.atom_size hdr.header_size) ∧
    (hdr.size_64bit = true ↔ readBE bytes pos 4 = some 1) ∧
    (hdr.size_64bit = true → readBE bytes (pos + 8) 8 = some hdr.atom_size) ∧
    (hdr.size_64bit = false → readBE bytes pos 4 = some hdr.atom_size) := by
  unfold readHeader at h
  cases h4 : readBE bytes pos 4 with
  | none => rw [h4] at h; exact Option.noConfusion h
  | some size32 =>
    cases hn : readBE bytes (pos + 4) 4 with
    | none => rw [h4, hn] at h; exact Option.noConfusion h
    | some nameVal =>
      rw [h4, hn] at h
      simp only at h
      by_cases h1 : size32 = 1
      · subst h1
        rw [if_pos rfl] at h
        cases h8 : readBE bytes (pos + 8) 8 with
        | none => rw [h8] at h; exact Option.noConfusion h
        | some size64 =>
          rw [h8] at h
          simp only at h
          by_cases hz : size64 = 0
          · rw [if_pos hz] at h; exact Option.noConfusion h
          · rw [if_neg hz] at h
            rw [Option.some.injEq, Prod.mk.injEq] at h
            obtain ⟨hh, hp⟩ := h
            subst hh
            exact ⟨rfl, hp.symm, Nat.one_le_iff_ne_zero.mpr hz, rfl, by simp, fun _ => rfl,
              fun hf => Bool.noConfusion hf⟩
      · rw [if_neg h1] at h
        by_cases hz : size32 = 0
        · rw [if_pos hz] at h; exact Option.noConfusion h
        · rw [if_neg hz] at h
          rw [Option.some.injEq, Prod.mk.injEq] at h
          obtain ⟨hh, hp⟩ := h
          subst hh
          refine ⟨rfl, hp.symm, Nat.one_le_iff_ne_zero.mpr hz, rfl, ?_, fun hf => Bool.noConfusion hf,
            fun _ => rfl⟩
          constructor
          · intro hf
            exact Bool.noConfusion hf
          · intro he
            exact absurd (Option.some.inj he) h1

/-- Both possible header sizes are at least 8. -/
theorem header_size_cases (h : AtomHeader) : h.header_size = 8 ∨ h.header_size = 16 := by
  unfold AtomHeader.header_size
  split
  · exact Or.inr rfl
  · exact Or.inl rfl

/-- Reinterpreting the wrapped difference a - b as an i64 recovers the
exact integer difference whenever a is below 2 pow 63 and b is a header
size. -/
theorem i64OfU64_wsub64 (a b : Nat) (ha : a < 2 ^ 63) (hb : b ≤ 16) :
    i64OfU64 (wsub64 a b) = (a : Int) - b := by
  unfold wsub64 i64OfU64 U64
  by_cases hab : b ≤ a
  · have h1 : (a + 2 ^ 64 - b) % 2 ^ 64 = a - b := by
      have h2 : a + 2 ^ 64 - b = (a - b) + 2 ^ 64 := by omega
      rw [h2, Nat.add_mod_right]
      exact Nat.mod_eq_of_lt (by omega)
    rw [h1, if_pos (by omega)]
    omega
  · have h1 : (a + 2 ^ 64 - b) % 2 ^ 64 = a + 2 ^ 64 - b := Nat.mod_eq_of_lt (by omega)
    rw [h1, if_neg (by omega)]
    push_cast
    omega

/-- Inversion of a successful findHeader: the result is the readHeader
result at the returned header's own offset and the name matches the
target. -/
theorem findHeader_spec (bytes : List Nat) (target : FourCC) :
    ∀ (fuel pos : Nat) (hdr : AtomHeader) (p : Nat),
      findHeader bytes target fuel pos = some (hdr, p) →
      readHeader bytes hdr.offset = some (hdr, p) ∧ hdr.name = target
  | 0, pos, hdr, p, h => Option.noConfusion h
  | fuel + 1, pos, hdr, p, h => by
    unfold findHeader at h
    by_cases hlen : pos < bytes.length
    · rw [if_pos hlen] at h
      cases hr : readHeader bytes pos with
      | none => rw [hr] at h; exact Option.noConfusion h
      | some r =>
        obtain ⟨hdr0, p0⟩ := r
        rw [hr] at h
        simp only at h
        by_cases hname : hdr0.name = target
        · rw [if_pos hname] at h
          rw [Option.some.injEq, Prod.mk.injEq] at h
          obtain ⟨rfl, rfl⟩ := h
          have h0 := readHeader_spec bytes pos hdr0 p0 hr
          refine ⟨?_, hname⟩
          rw [h0.1]
          exact hr
        · rw [if_neg hname] at h
          by_cases hneg : ((p0 : Int) + i64OfU64 hdr0.next < 0)
          · rw [if_pos hneg] at h; exact Option.noConfusion h
          · rw [if_neg hneg] at h
            exact findHeader_spec bytes target fuel _ hdr p h
    · rw [if_neg hlen] at h
      exact Option.noConfusion h

/-- C2: reading an atom header whose 32-bit size field equals 1 consumes
an 8-byte big-endian extended size, sets atom_size to it and the 64-bit
flag to true, after which header_size is 16 (derived from the stored
flag), data_offset is offset + 16 and the next sibling begins at
offset + atom_size; for every other 32-bit size value the flag is false
and header_size is 8. -/
theorem readHeader_64bit_size_contract (bytes : List Nat) (pos : Nat) (hdr : AtomHeader)
    (p : Nat) (h : readHeader bytes pos = some (hdr, p)) :
    hdr.offset = pos
    ∧ (hdr.size_64bit = true ↔ readBE bytes pos 4 = some 1)
    ∧ (hdr.size_64bit = true →
        hdr.header_size = 16 ∧ hdr.data_offset = pos + 16 ∧ p = pos + 16
        ∧ readBE bytes (pos + 8) 8 = some hdr.atom_size)
    ∧ (hdr.size_64bit = false →
        hdr.header_size = 8 ∧ hdr.data_offset = pos + 8 ∧ p = pos + 8
        ∧ readBE bytes pos 4 = some hdr.atom_size)
    ∧ hdr.offset_next_abs = pos + hdr.atom_size := by
  obtain ⟨ho, hp, _, _, hiff, h64, h32⟩ := readHeader_spec bytes pos hdr p h
  refine ⟨ho, hiff, fun hf => ?_, fun hf => ?_, ?_⟩
  · have hh : hdr.header_size = 16 := by simp [AtomHeader.header_size, hf]
    exact ⟨hh, by simp [AtomHeader.data_offset, ho, hh], by rw [hp, hh], h64 hf⟩
  · have hh : hdr.header_size = 8 := by simp [AtomHeader.header_size, hf]
    exact ⟨hh, by simp [AtomHeader.data_offset, ho, hh], by rw [hp, hh], h32 hf⟩
  · simp [AtomHeader.offset_next_abs, ho]

/-- A concrete 64-bit sized atom header: size32 = 1, FourCC mdat, size64 =
2 pow 32 (spec scenario S3). -/
def s3Bytes : List Nat := [0, 0, 0, 1, 109, 100, 97, 116, 0, 0, 0, 1, 0, 0, 0, 0]

/-- The header readHeader produces for s3Bytes. -/
def s3Hdr : AtomHeader :=
  { atom_size := 4294967296, name := FourCC.Mdat, offset := 0,
    next := 4294967280, size_64bit := true }

/-- Witness for the C2 theorem at scenario S3. -/
theorem readHeader_64bit_size_contract_w :
    readHeader s3Bytes 0 = some (s3Hdr, 16)
    ∧ s3Hdr.header_size = 16 ∧ s3Hdr.data_offset = 0 + 16
    ∧ s3Hdr.offset_next_abs = 0 + 4294967296 := by
  have h0 : readHeader s3Bytes 0 = some (s3Hdr, 16) := by decide
  have h := readHeader_64bit_size_contract s3Bytes 0 s3Hdr 16 h0
  exact ⟨h0, (h.2.2.1 (by decide)).1, (h.2.2.1 (by decide)).2.1, h.2.2.2.2⟩

/-- A concrete leaf atom header with declared atom_size 2, smaller than
its own 8-byte header. -/
def c9Bytes : List Nat := [0, 0, 0, 2, 102, 111, 111, 95]

/-- C9 counterexample: a successful next_header with seek that advances
the stream position from 0 to 2, that is by the declared atom_size 2 and
not by at least 8 bytes (the wrapped next value seeks 6 bytes backwards
from the post-header position). -/
theorem nextHeader_small_atom_cex :
    nextHeader c9Bytes 0
      = some ({ atom_size := 2, name := FourCC.Custom "foo_", offset := 0,
                next := 18446744073709551610, size_64bit := false }, 2)
    ∧ (2 : Nat) < 0 + 8 := by decide

/-- C9 amended: for atom sizes below 2 pow 63, every successful
next_header with seek strictly increases the stream position, by
header_size for containers and by atom_size for leaves; the claimed
8-byte lower bound holds only for containers and for leaves whose
atom_size is at least 8. -/
theorem nextHeader_advance (bytes : List Nat) (pos : Nat) (hdr : AtomHeader) (p : Nat)
    (h : nextHeader bytes pos = some (hdr, p)) (hsize : hdr.atom_size < 2 ^ 63) :
    p = pos + (if hdr.is_container then hdr.header_size else hdr.atom_size)
    ∧ pos < p
    ∧ (hdr.is_container = true ∨ 8 ≤ hdr.atom_size → pos + 8 ≤ p) := by
  unfold nextHeader at h
  cases hr : readHeader bytes pos with
  | none => rw [hr] at h; exact Option.noConfusion h
  | some r =>
    obtain ⟨hdr0, p0⟩ := r
    rw [hr] at h
    simp only at h
    obtain ⟨ho, hp0, hone, hnext, _, _, _⟩ := readHeader_spec bytes pos hdr0 p0 hr
    have hhs : hdr0.header_size = 8 ∨ hdr0.header_size = 16 := header_size_cases hdr0
    by_cases hc : hdr0.is_container = true
    · rw [hnext, if_pos hc] at h
      have hz : i64OfU64 0 = 0 := by decide
      rw [hz] at h
      rw [if_neg (by omega)] at h
      rw [Option.some.injEq, Prod.mk.injEq] at h
      obtain ⟨rfl, hp⟩ := h
      have hp' : p = p0 := by omega
      subst hp'
      rw [hp0]
      refine ⟨by rw [if_pos hc], by omega, fun _ => by omega⟩
    · rw [hnext, if_neg hc] at h
      by_cases hneg : ((p0 : Int) + i64OfU64 (wsub64 hdr0.atom_size hdr0.header_size) < 0)
      · rw [if_pos hneg] at h; exact Option.noConfusion h
      · rw [if_neg hneg] at h
        rw [Option.some.injEq, Prod.mk.injEq] at h
        obtain ⟨rfl, hp⟩ := h
        have hw := i64OfU64_wsub64 hdr0.atom_size hdr0.header_size hsize (by omega)
        rw [hw] at hp
        rw [if_neg hc]
        refine ⟨by omega, by omega, fun hor => ?_⟩
        rcases hor with hor | hor
        · exact absurd hor hc
        · omega

/-- A concrete moov container header used as witness input. -/
def moovHdrEx : AtomHeader :=
  { atom_size := 32, name := FourCC.Moov, offset := 0, next := 0, size_64bit := false }

/-- Witness for the C9 amended theorem on a concrete container atom. -/
theorem nextHeader_advance_w :
    (8 : Nat) = 0 + (if moovHdrEx.is_container then moovHdrEx.header_size else moovHdrEx.atom_size)
    ∧ 0 < 8
    ∧ (moovHdrEx.is_container = true ∨ 8 ≤ moovHdrEx.atom_size → 0 + 8 ≤ 8) :=
  nextHeader_advance [0, 0, 0, 32, 109, 111, 111, 118] 0 moovHdrEx 8 (by decide) (by decide)

/-- A concrete udta atom: 16 bytes, 8 of payload. -/
def udtaBytes : List Nat := [0, 0, 0, 16, 117, 100, 116, 97, 0, 0, 0, 0, 0, 0, 0, 0]

/-- C4 counterexample: a udta atom header is classified as a leaf
(is_container is false) and its next field is data_size = 8, not 0, so
udta is not in the container set the code uses. -/
theorem udta_not_container_cex :
    (readHeader udtaBytes 0).map (fun r => (r.1.name, r.1.is_container, r.1.next))
      = some (FourCC.Udta, false, 8) := by decide

/-- C4 amended: for every header the codec produces, is_container holds
exactly when the FourCC is one of the eight names moov, trak, tref, edts,
mdia, minf, dinf, stbl; in particular udta is a leaf and its next field is
the wrapped atom_size - header_size like any other leaf. -/
theorem is_container_members (bytes : List Nat) (pos : Nat) (hdr : AtomHeader) (p : Nat)
    (h : readHeader bytes pos = some (hdr, p)) :
    (hdr.is_container = true ↔
      (hdr.name.to_str = "moov" ∨ hdr.name.to_str = "trak" ∨ hdr.name.to_str = "tref" ∨
       hdr.name.to_str = "edts" ∨ hdr.name.to_str = "mdia" ∨ hdr.name.to_str = "minf" ∨
       hdr.name.to_str = "dinf" ∨ hdr.name.to_str = "stbl"))
    ∧ (hdr.name = FourCC.Udta →
        hdr.is_container = false ∧ hdr.next = wsub64 hdr.atom_size hdr.header_size) := by
  obtain ⟨_, _, _, hnext, _, _, _⟩ := readHeader_spec bytes pos hdr p h
  constructor
  · constructor
    · intro hci
      have hci2 : List.elem hdr.name.to_str CONTAINER = true := hci
      have hmem : hdr.name.to_str ∈ CONTAINER := List.elem_iff.mp hci2
      simpa [CONTAINER] using hmem
    · intro hd
      have hmem : hdr.name.to_str ∈ CONTAINER := by simpa [CONTAINER] using hd
      exact List.elem_iff.mpr hmem
  · intro hu
    have h1 : hdr.is_container = false := by
      simp only [AtomHeader.is_container, hu]
      decide
    refine ⟨h1, ?_⟩
    rw [hnext, h1]
    simp

/-- A concrete udta header produced by readHeader on udtaBytes. -/
def udtaHdrEx : AtomHeader :=
  { atom_size := 16, name := FourCC.Udta, offset := 0, next := 8, size_64bit := false }

/-- Witness for the C4 amended theorem on the concrete udta atom. -/
theorem is_container_members_w :
    (udtaHdrEx.is_container = true ↔
      (udtaHdrEx.name.to_str = "moov" ∨ udtaHdrEx.name.to_str = "trak" ∨
       udtaHdrEx.name.to_str = "tref" ∨ udtaHdrEx.name.to_str = "edts" ∨
       udtaHdrEx.name.to_str = "mdia" ∨ udtaHdrEx.name.to_str = "minf" ∨
       udtaHdrEx.name.to_str = "dinf" ∨ udtaHdrEx.name.to_str = "stbl"))
    ∧ (udtaHdrEx.name = FourCC.Udta →
        udtaHdrEx.is_container = false
        ∧ udtaHdrEx.next = wsub64 udtaHdrEx.atom_size udtaHdrEx.header_size) :=
  is_container_members udtaBytes 0 udtaHdrEx 8 (by decide)

set_option maxHeartbeats 2000000 in
/-- C7: FourCC equality is not byte-wise. The raw bytes of ctts parse
through from_slice (the path the header reader takes) to Custom "ctts",
while from_str (the path find_header takes) yields the Ctts variant; the
two render to the same four bytes yet compare unequal, and consequently
find_header on a stream holding a ctts atom never matches it. For every
tag from_slice does recognize the two constructors agree (shown here for
the full recognized set). -/
theorem fourcc_ctts_not_bytewise :
    FourCC.from_slice [99, 116, 116, 115] = FourCC.Custom "ctts"
    ∧ FourCC.from_str "ctts" = FourCC.Ctts
    ∧ FourCC.from_slice [99, 116, 116, 115] ≠ FourCC.from_str "ctts"
    ∧ (FourCC.from_slice [99, 116, 116, 115]).to_str = (FourCC.from_str "ctts").to_str
    ∧ findHeader [0, 0, 0, 8, 99, 116, 116, 115] (FourCC.from_str "ctts") 10 0 = none
    ∧ (["dinf", "dref", "edts", "elst", "ftyp", "gmhd", "hdlr", "iods", "mdat", "mdhd",
        "mdia", "minf", "moov", "mvhd", "smhd", "sdtp", "stbl", "stco", "stsc", "stsd",
        "stss", "stsz", "stts", "tkhd", "trak", "tref", "udta", "vmhd", "co64",
        "tmcd"].all
        (fun tag => FourCC.from_slice (tag.toList.map Char.toNat) == FourCC.from_str tag))
      = true := by decide

/-- The remainder bytes of spec scenario S5, the ISO-8859-1 text GoPro
MET. -/
def goProMetBytes : List Nat := [71, 111, 80, 114, 111, 32, 77, 69, 84]

/-- C5 counterexample: the single-byte remainder with first byte 1
satisfies the claimed Pascal condition 1 ≤ remaining = 1, but the decoder
does not return the next 1 bytes as the name: the slice from 1 to c + 1
overruns the buffer and the source panics. -/
theorem hdlr_count_boundary_cex :
    hdlrComponentName [1] = HdlrName.panicked
    ∧ hdlrComponentName [1] ≠ HdlrName.ok (bytes2iso8859_1 ((([1] : List Nat).drop 1).take 1)) := by
  decide

/-- C5 amended: with first byte c and remainder length rem, the decoder
returns the next c bytes as a Pascal-style counted name only when
c < rem; at exactly c = rem the bounds test still passes but the slice
overruns (panic); for c > rem the whole remainder is decoded. In each
ok case bytes are ISO-8859-1 decoded, NULs dropped and whitespace
trimmed. -/
theorem hdlrComponentName_cases (bs : List Nat) (c : Nat) (hc : bs.head? = some c) :
    (c + 1 ≤ bs.length →
        hdlrComponentName bs = HdlrName.ok (bytes2iso8859_1 ((bs.drop 1).take c)))
    ∧ (c = bs.length → hdlrComponentName bs = HdlrName.panicked)
    ∧ (bs.length < c → hdlrComponentName bs = HdlrName.ok (bytes2iso8859_1 bs)) := by
  have hmain : hdlrComponentName bs =
      (if c ≤ bs.length then
        (if c + 1 ≤ bs.length then HdlrName.ok (bytes2iso8859_1 ((bs.drop 1).take c))
         else HdlrName.panicked)
       else HdlrName.ok (bytes2iso8859_1 bs)) := by
    unfold hdlrComponentName
    rw [hc]
  refine ⟨fun h1 => ?_, fun h2 => ?_, fun h3 => ?_⟩
  · rw [hmain, if_pos (by omega), if_pos h1]
  · rw [hmain, if_pos (by omega), if_neg (by omega)]
  · rw [hmain, if_neg (by omega)]

/-- Witness for the C5 amended theorem: the GoPro MET remainder (first
byte 71 exceeds the length 9) decodes by the whole-remainder fallback, and
an empty remainder is MissingHandlerName. -/
theorem hdlrComponentName_cases_w :
    hdlrComponentName goProMetBytes = HdlrName.ok "GoPro MET"
    ∧ hdlrComponentName [] = HdlrName.missingHandlerName := by
  have h := (hdlrComponentName_cases goProMetBytes 71 (by decide)).2.2 (by decide)
  rw [h]
  exact ⟨by decide, by decide⟩

/-- C6 counterexample: with the moov atom spanning offsets 100 to 150,
sync_seek to the absolute offset 150 (outside the half-open region
100 to 150) succeeds, and sync_pos of the file stream at position 200
(past the region) also succeeds; the claim says both must fail with
BoundsError. -/
theorem sync_outside_moov_cex :
    syncSeek { filePos := 0, moovPos := 0, moovOffset := 100, moovSize := 50 } 150
      = SyncResult.ok { filePos := 150, moovPos := 50, moovOffset := 100, moovSize := 50 } 150
    ∧ syncPos { filePos := 200, moovPos := 0, moovOffset := 100, moovSize := 50 } Target.file
      = SyncResult.ok { filePos := 200, moovPos := 100, moovOffset := 100, moovSize := 50 } 100
    ∧ ¬ (100 ≤ (150 : Nat) ∧ (150 : Nat) < 100 + 50)
    ∧ ¬ (100 ≤ (200 : Nat) ∧ (200 : Nat) < 100 + 50) := by decide

/-- C6 amended: sync_seek fails exactly when the absolute offset is
outside the closed interval from moov offset to moov offset + moov size
(so the moov end offset itself is accepted), and on success both streams
satisfy the code's own alignment equation file position = moov position +
moov offset; sync_pos on the file stream checks only the lower bound, and
sync_pos on the moov stream performs no bounds check at all. -/
theorem sync_bounds_contract (st : RdrState) (abs2 : Nat) :
    (∀ st2 q, syncSeek st abs2 = SyncResult.ok st2 q →
        st.moovOffset ≤ abs2 ∧ abs2 ≤ st.moovOffset + st.moovSize
        ∧ st2.filePos = abs2 ∧ st2.moovPos + st.moovOffset = abs2 ∧ q = abs2)
    ∧ (st.moovOffset ≤ abs2 → abs2 ≤ st.moovOffset + st.moovSize →
        syncSeek st abs2
          = SyncResult.ok { st with filePos := abs2, moovPos := abs2 - st.moovOffset } abs2)
    ∧ (∀ st2 q, syncPos st Target.file = SyncResult.ok st2 q →
        st.moovOffset ≤ st.filePos ∧ st2.filePos = st.filePos
        ∧ st2.moovPos + st.moovOffset = st.filePos)
    ∧ (st.filePos < st.moovOffset →
        syncPos st Target.file
          = SyncResult.boundsErr st.filePos st.moovOffset (st.moovOffset + st.moovSize))
    ∧ syncPos st Target.moov
        = SyncResult.ok { st with filePos := st.moovPos + st.moovOffset }
            (st.moovPos + st.moovOffset) := by
  refine ⟨?_, ?_, ?_, ?_, ?_⟩
  · intro st2 q h
    unfold syncSeek at h
    by_cases hb : (abs2 < st.moovOffset ∨ st.moovOffset + st.moovSize < abs2)
    · rw [if_pos hb] at h; exact SyncResult.noConfusion h
    · rw [if_neg hb] at h
      push_neg at hb
      obtain ⟨hb1, hb2⟩ := hb
      cases h
      refine ⟨by omega, by omega, rfl, ?_, rfl⟩
      dsimp only
      omega
  · intro hb1 hb2
    unfold syncSeek
    rw [if_neg (by omega)]
  · intro st2 q h
    unfold syncPos at h
    by_cases hb : st.moovOffset ≤ st.filePos
    · rw [if_pos hb] at h
      cases h
      refine ⟨hb, rfl, ?_⟩
      dsimp only
      omega
    · rw [if_neg hb] at h
      exact SyncResult.noConfusion h
  · intro hb
    unfold syncPos
    rw [if_neg (by omega)]
  · rfl

/-- Witness for the C6 amended theorem. -/
theorem sync_bounds_contract_w :
    syncSeek { filePos := 0, moovPos := 0, moovOffset := 100, moovSize := 50 } 120
      = SyncResult.ok { filePos := 120, moovPos := 20, moovOffset := 100, moovSize := 50 } 120 := by
  have h := (sync_bounds_contract
      { filePos := 0, moovPos := 0, moovOffset := 100, moovSize := 50 } 120).2.1
    (by decide) (by decide)
  exact h

/-- The stsc table of the C1 failing input: every chunk holds two samples
(single entry with first_chunk 1 and samples_per_chunk 2). -/
def stscTwoPer : Stsc := { no_of_entries := 1, sample_to_chunk_table := [⟨1, 2, 1⟩] }

/-- The stsc table of spec scenario S2: chunks 1 and 2 hold two samples,
chunks 3 and up hold three. -/
def stscS2ex : Stsc := { no_of_entries := 2, sample_to_chunk_table := [⟨1, 2, 1⟩, ⟨3, 3, 1⟩] }

/-- C1: the reconstructor indexes the per-sample size list by the chunk
index, not by a flat cursor of samples already consumed. On the mutually
consistent input stsc = [(1,2,1)], sizes = [100, 200, 300, 400], chunk
offsets = [0x1000, 0x2000] (2 chunks x 2 samples = 4 sizes = 4 stts
entries), chunk 2 consumes sizes[1..3] = [200, 300] instead of the
remaining sizes [300, 400], so its second sample lands at 0x2000 + 200
instead of 0x2000 + 300. The spec-modelled flat-cursor expansion is shown
alongside, as is the claim's own all-sizes-100 example (scenario S2), on
which the two agree because equal sizes mask the wrong cursor. -/
theorem offsets_chunk_cursor_bug :
    (offsetsNew [(4, 1000)] stscTwoPer [100, 200, 300, 400] [4096, 8192] 1000 false).map
        (fun l => l.map (fun o => o.position))
      = some [4096, 4196, 8192, 8392]
    ∧ specFlatExpand stscTwoPer [100, 200, 300, 400] 0 0 [4096, 8192]
      = some [4096, 4196, 8192, 8492]
    ∧ expandChunks stscTwoPer [100, 200, 300, 400] 0 [4096, 8192]
      = some [4096, 4196, 8192, 8392]
    ∧ expandChunks stscS2ex (List.replicate 11 100) 0 [8192, 8704, 9216, 9984]
      = some [8192, 8292, 8704, 8804, 9216, 9316, 9416, 9984, 10084, 10184]
    ∧ specFlatExpand stscS2ex (List.replicate 11 100) 0 0 [8192, 8704, 9216, 9984]
      = some [8192, 8292, 8704, 8804, 9216, 9316, 9416, 9984, 10084, 10184] := by decide

/-- C3 counterexample: the expanded durations list has length 1 while the
size list has length 2, yet the reconstructor returns a 1-entry table
instead of failing with a size-mismatch error: the zip silently truncates. -/
theorem offsets_zip_truncates_cex :
    (sttsDurations [(1, 500)]).length = 1
    ∧ ([100, 200] : List Nat).length = 2
    ∧ offsetsNew [(1, 500)] stscTwoPer [100, 200] [4096] 7 false
      = some [Offset.new 4096 100 500 7 false] := by decide

/-- Length of the truncating three-way zip. -/
theorem zip3_length (a : List α) (b : List β) (c : List γ) :
    (zip3 a b c).length = min a.length (min b.length c.length) := by
  induction a generalizing b c with
  | nil => simp [zip3]
  | cons x xs ih =>
    cases b with
    | nil => simp [zip3]
    | cons y ys =>
      cases c with
      | nil => simp [zip3]
      | cons z zs =>
        have h := ih ys zs
        simp only [zip3, List.length_cons, h]
        omega

/-- Pointwise description of the three-way zip. -/
theorem zip3_getElem? (a : List α) (b : List β) (cl : List γ) (i : Nat) (x : α) (y : β) (z : γ)
    (ha : a[i]? = some x) (hb : b[i]? = some y) (hc : cl[i]? = some z) :
    (zip3 a b cl)[i]? = some (x, y, z) := by
  induction a generalizing b cl i with
  | nil => simp at ha
  | cons a0 as ih =>
    cases b with
    | nil => simp at hb
    | cons b0 bs =>
      cases cl with
      | nil => simp at hc
      | cons c0 cs =>
        have hz : zip3 (a0 :: as) (b0 :: bs) (c0 :: cs) = (a0, b0, c0) :: zip3 as bs cs := rfl
        cases i with
        | zero =>
          simp only [List.getElem?_cons_zero, Option.some.injEq] at ha hb hc
          subst ha hb hc
          rw [hz, List.getElem?_cons_zero]
        | succ j =>
          rw [List.getElem?_cons_succ] at ha hb hc
          rw [hz, List.getElem?_cons_succ]
          exact ih bs cs j ha hb hc

/-- C3 amended: the i-th emitted entry pairs the i-th expanded stts
duration with the i-th stsz size and the i-th expanded sample offset, but
when the three lengths disagree the reconstructor does not fail: it
silently truncates the table to the shortest of the three lists. -/
theorem offsetsNew_pairs_truncate (stts_table : List (Nat × Nat)) (stsc : Stsc)
    (sizes chunk_offsets : List Nat) (ts : Nat) (ok : Bool) (smp : List Nat) (res : List Offset)
    (hexp : expandChunks stsc sizes 0 chunk_offsets = some smp)
    (hres : offsetsNew stts_table stsc sizes chunk_offsets ts ok = some res) :
    res.length = min (sttsDurations stts_table).length (min sizes.length smp.length)
    ∧ ∀ (i d sz pp : Nat), (sttsDurations stts_table)[i]? = some d → sizes[i]? = some sz →
        smp[i]? = some pp → res[i]? = some (Offset.new pp sz d ts ok) := by
  unfold offsetsNew at hres
  rw [hexp] at hres
  rw [Option.map_some', Option.some.injEq] at hres
  subst hres
  constructor
  · rw [List.length_map, zip3_length]
  · intro i d sz pp hd hs hp
    rw [List.getElem?_map, zip3_getElem? _ _ _ i d sz pp hd hs hp]
    rfl

/-- Witness for the C3 amended theorem: on the truncating counterexample
input, the table has the minimum length 1 and its single entry pairs the
first duration, size and offset. -/
theorem offsetsNew_pairs_truncate_w :
    ([Offset.new 4096 100 500 7 false].length
      = min (sttsDurations [(1, 500)]).length
          (min ([100, 200] : List Nat).length ([4096, 4196] : List Nat).length))
    ∧ ([Offset.new 4096 100 500 7 false] : List Offset)[0]?
      = some (Offset.new 4096 100 500 7 false) :=
  ⟨(offsetsNew_pairs_truncate [(1, 500)] stscTwoPer [100, 200] [4096] 7 false
      [4096, 4196] [Offset.new 4096 100 500 7 false] (by decide) (by decide)).1,
   (offsetsNew_pairs_truncate [(1, 500)] stscTwoPer [100, 200] [4096] 7 false
      [4096, 4196] [Offset.new 4096 100 500 7 false] (by decide) (by decide)).2
     0 500 100 4096 (by decide) (by decide) (by decide)⟩

/-- The sample iterator yields one item per offset-table entry. -/
theorem samplesFrom_length (file : List Nat) (t : Int) (offs : List SampleOffset) :
    (samplesFrom file t offs).length = offs.length := by
  induction offs generalizing t with
  | nil => rfl
  | cons o rest ih => simp [samplesFrom, ih]

/-- The timestamp iterator yields one pair per offset-table entry. -/
theorem timestampsFrom_length (t : Int) (offs : List SampleOffset) :
    (timestampsFrom t offs).length = offs.length := by
  induction offs generalizing t with
  | nil => rfl
  | cons o rest ih => simp [timestampsFrom, ih]

/-- Pointwise description of the sample iterator with an arbitrary
starting timestamp. -/
theorem samplesFrom_getElem? (file : List Nat) (offs : List SampleOffset) (t : Int) (k : Nat)
    (o : SampleOffset) (ho : offs[k]? = some o) :
    (samplesFrom file t offs)[k]? =
      some ((sampleNew file o).map (fun s => s.with_time (t + sumDur (offs.take k)))) := by
  induction offs generalizing t k with
  | nil => simp at ho
  | cons o0 rest ih =>
    have hz : samplesFrom file t (o0 :: rest)
        = ((sampleNew file o0).map (fun s => s.with_time t))
          :: samplesFrom file (t + o0.duration) rest := rfl
    cases k with
    | zero =>
      simp only [List.getElem?_cons_zero, Option.some.injEq] at ho
      subst ho
      rw [hz, List.getElem?_cons_zero]
      simp [sumDur]
    | succ j =>
      rw [List.getElem?_cons_succ] at ho
      rw [hz, List.getElem?_cons_succ, ih (t + o0.duration) j ho]
      have hd : t + o0.duration + sumDur (rest.take j) = t + sumDur ((o0 :: rest).take (j + 1)) := by
        simp [sumDur, List.take_succ_cons]
        ring
      rw [hd]

/-- Pointwise description of the timestamp iterator. -/
theorem timestampsFrom_getElem? (offs : List SampleOffset) (t : Int) (k : Nat)
    (o : SampleOffset) (ho : offs[k]? = some o) :
    (timestampsFrom t offs)[k]? = some (t + sumDur (offs.take k), o.duration) := by
  induction offs generalizing t k with
  | nil => simp at ho
  | cons o0 rest ih =>
    have hz : timestampsFrom t (o0 :: rest)
        = (t, o0.duration) :: timestampsFrom (t + o0.duration) rest := rfl
    cases k with
    | zero =>
      simp only [List.getElem?_cons_zero, Option.some.injEq] at ho
      subst ho
      rw [hz, List.getElem?_cons_zero]
      simp [sumDur]
    | succ j =>
      rw [List.getElem?_cons_succ] at ho
      rw [hz, List.getElem?_cons_succ, ih (t + o0.duration) j ho]
      have hd : t + o0.duration + sumDur (rest.take j) = t + sumDur ((o0 :: rest).take (j + 1)) := by
        simp [sumDur, List.take_succ_cons]
        ring
      rw [hd]

/-- C8: for every track view, iteration over samples ends after exactly
one item per offset-table entry; the k-th successfully read sample
carries relative_time equal to the sum of the durations of the first k
offsets, carries the k-th offset's duration, and its byte buffer has
length exactly the k-th offset's size; timestamps yields the same
(relative_time, duration) pairs starting at 0. -/
theorem track_samples_contract (file : List Nat) (offs : List SampleOffset) :
    (samplesList file offs).length = offs.length
    ∧ (∀ (k : Nat) (o : SampleOffset) (s : Sample),
        offs[k]? = some o → (samplesList file offs)[k]? = some (some s) →
        s.relative_time = sumDur (offs.take k) ∧ s.sample_duration = o.duration
        ∧ s.bytes.length = o.size)
    ∧ (timestampsList offs).length = offs.length
    ∧ (∀ (k : Nat) (o : SampleOffset), offs[k]? = some o →
        (timestampsList offs)[k]? = some (sumDur (offs.take k), o.duration)) := by
  refine ⟨samplesFrom_length file 0 offs, ?_, timestampsFrom_length 0 offs, ?_⟩
  · intro k o s ho hs
    rw [samplesList, samplesFrom_getElem? file offs 0 k o ho, Option.some.injEq] at hs
    cases hn : sampleNew file o with
    | none => rw [hn] at hs; exact Option.noConfusion hs
    | some s0 =>
      rw [hn, Option.map_some', Option.some.injEq] at hs
      unfold sampleNew at hn
      by_cases hb : o.position < 2 ^ 63 ∧ o.position + o.size ≤ file.length
      · rw [if_pos hb] at hn
        rw [Option.some.injEq] at hn
        subst hn
        subst hs
        refine ⟨by simp [Sample.with_time], by simp [Sample.with_time], ?_⟩
        simp only [Sample.with_time]
        rw [List.length_take, List.length_drop]
        omega
      · rw [if_neg hb] at hn
        exact Option.noConfusion hn
  · intro k o ho
    simpa [timestampsList] using timestampsFrom_getElem? offs 0 k o ho

/-- A small concrete file and offset table for the C8 witness. -/
def wFile : List Nat := [0, 1, 2, 3, 4, 5, 6, 7, 8, 9]

/-- Two offsets: 3 bytes at position 2 with duration 5, then 2 bytes at
position 5 with duration 7. -/
def wOffs : List SampleOffset := [{ position := 2, size := 3, duration := 5 },
  { position := 5, size := 2, duration := 7 }]

/-- The second emitted sample of the witness run. -/
def wSample : Sample := { relative_time := 5, sample_duration := 7, bytes := [5, 6] }

/-- Witness for the C8 theorem at a concrete file and table: the second
sample starts at relative time 5 (the first offset's duration), carries
duration 7 and exactly 2 bytes. -/
theorem track_samples_contract_w :
    wOffs[1]? = some { position := 5, size := 2, duration := 7 }
    ∧ (samplesList wFile wOffs)[1]? = some (some wSample)
    ∧ (wSample.relative_time = sumDur (wOffs.take 1)
        ∧ wSample.sample_duration = ({ position := 5, size := 2, duration := 7 } : SampleOffset).duration
        ∧ wSample.bytes.length = ({ position := 5, size := 2, duration := 7 } : SampleOffset).size) :=
  ⟨by decide, by decide,
   (track_samples_contract wFile wOffs).2.1 1 { position := 5, size := 2, duration := 7 } wSample
     (by decide) (by decide)⟩

/-- A successful bounded read stays within the stream. -/
theorem readBytesAt_length (bytes : List Nat) (pos n : Nat) (bs : List Nat)
    (h : readBytesAt bytes pos n = some bs) : pos + n ≤ bytes.length := by
  unfold readBytesAt at h
  by_cases hb : pos + n ≤ bytes.length
  · exact hb
  · rw [if_neg hb] at h; exact Option.noConfusion h

/-- A successful bounded read returns the corresponding slice. -/
theorem readBytesAt_val (bytes : List Nat) (pos n : Nat) (bs : List Nat)
    (h : readBytesAt bytes pos n = some bs) : bs = (bytes.drop pos).take n := by
  unfold readBytesAt at h
  by_cases hb : pos + n ≤ bytes.length
  · rw [if_pos hb, Option.some.injEq] at h; exact h.symm
  · rw [if_neg hb] at h; exact Option.noConfusion h

/-- Reading inside an in-bounds slice equals reading the backing stream at
the shifted position. -/
theorem readBytesAt_slice (file : List Nat) (d L p n : Nat) (hL : d + L ≤ file.length)
    (hpn : p + n ≤ L) :
    readBytesAt ((file.drop d).take L) p n = readBytesAt file (d + p) n := by
  unfold readBytesAt
  have hlen : ((file.drop d).take L).length = L := by
    rw [List.length_take, List.length_drop]
    omega
  rw [hlen]
  rw [if_pos hpn, if_pos (by omega)]
  rw [List.drop_take, List.take_take, List.drop_drop]
  rw [Nat.min_def, if_pos (by omega)]

/-- Big-endian reads shift from a slice to the backing stream. -/
theorem readBE_slice (file : List Nat) (d L p n v : Nat) (hL : d + L ≤ file.length)
    (h : readBE ((file.drop d).take L) p n = some v) :
    readBE file (d + p) n = some v ∧ p + n ≤ L := by
  unfold readBE at h ⊢
  cases hb : readBytesAt ((file.drop d).take L) p n with
  | none => rw [hb] at h; exact Option.noConfusion h
  | some bs =>
    rw [hb] at h
    have hpn : p + n ≤ L := by
      have h1 := readBytesAt_length _ _ _ _ hb
      have hlen : ((file.drop d).take L).length = L := by
        rw [List.length_take, List.length_drop]
        omega
      omega
    have hb2 : readBytesAt file (d + p) n = some bs := by
      rw [← readBytesAt_slice file d L p n hL hpn]
      exact hb
    rw [hb2]
    exact ⟨h, hpn⟩

/-- Reading an atom header inside an in-bounds slice of the file yields
the same header as reading the file at the shifted position, except that
the recorded offset is the slice-relative position rather than the
shifted one. -/
theorem readHeader_shift (file : List Nat) (d L p : Nat) (hL : d + L ≤ file.length)
    (hdr : AtomHeader) (q : Nat)
    (h : readHeader ((file.drop d).take L) p = some (hdr, q)) :
    readHeader file (d + p) = some ({ hdr with offset := d + p }, d + q) := by
  unfold readHeader at h ⊢
  cases h4 : readBE ((file.drop d).take L) p 4 with
  | none => rw [h4] at h; exact Option.noConfusion h
  | some size32 =>
    obtain ⟨h4f, _⟩ := readBE_slice file d L p 4 size32 hL h4
    cases hn : readBE ((file.drop d).take L) (p + 4) 4 with
    | none => rw [h4, hn] at h; exact Option.noConfusion h
    | some nameVal =>
      obtain ⟨hnf, _⟩ := readBE_slice file d L (p + 4) 4 nameVal hL hn
      have hnf2 : readBE file (d + p + 4) 4 = some nameVal := by
        rw [Nat.add_assoc]
        exact hnf
      rw [h4, hn] at h
      rw [h4f, hnf2]
      simp only at h ⊢
      by_cases h1 : size32 = 1
      · subst h1
        rw [if_pos rfl] at h ⊢
        cases h8 : readBE ((file.drop d).take L) (p + 8) 8 with
        | none => rw [h8] at h; exact Option.noConfusion h
        | some size64 =>
          obtain ⟨h8f, _⟩ := readBE_slice file d L (p + 8) 8 size64 hL h8
          have h8f2 : readBE file (d + p + 8) 8 = some size64 := by
            rw [Nat.add_assoc]
            exact h8f
          rw [h8] at h
          rw [h8f2]
          simp only at h ⊢
          by_cases hz : size64 = 0
          · rw [if_pos hz] at h; exact Option.noConfusion h
          · rw [if_neg hz] at h ⊢
            rw [Option.some.injEq, Prod.mk.injEq] at h
            obtain ⟨hh, hq⟩ := h
            subst hh
            rw [Option.some.injEq, Prod.mk.injEq]
            exact ⟨rfl, by omega⟩
      · rw [if_neg h1] at h ⊢
        by_cases hz : size32 = 0
        · rw [if_pos hz] at h; exact Option.noConfusion h
        · rw [if_neg hz] at h ⊢
          rw [Option.some.injEq, Prod.mk.injEq] at h
          obtain ⟨hh, hq⟩ := h
          subst hh
          rw [Option.some.injEq, Prod.mk.injEq]
          exact ⟨rfl, by omega⟩

/-- Inversion of a successful open: the moov header is a genuine header of
the file stream whose FourCC is moov, the in-memory moov stream is the
data_size slice of the file starting at the moov data offset, and that
slice lies within the file. -/
theorem withCapacity_spec (file : List Nat) (st : Mp4Streams)
    (h : withCapacity file = some st) :
    st.fileBytes = file
    ∧ readHeader file st.moovHdr.offset = some (st.moovHdr, st.moovHdr.data_offset)
    ∧ st.moovHdr.name = FourCC.Moov
    ∧ st.moovBytes = (file.drop st.moovHdr.data_offset).take st.moovHdr.data_size
    ∧ st.moovHdr.data_offset + st.moovHdr.data_size ≤ file.length := by
  unfold withCapacity at h
  cases hf : findHeader file (FourCC.from_str "moov") (file.length + 1) 0 with
  | none => rw [hf] at h; exact Option.noConfusion h
  | some r =>
    obtain ⟨hdr0, p0⟩ := r
    rw [hf] at h
    simp only at h
    obtain ⟨hread, hname⟩ := findHeader_spec file (FourCC.from_str "moov") (file.length + 1) 0
      hdr0 p0 hf
    obtain ⟨ho, hp0, _, _, _, _, _⟩ := readHeader_spec file hdr0.offset hdr0 p0 hread
    have hdo : p0 = hdr0.data_offset := by
      rw [AtomHeader.data_offset, ← ho]
      exact hp0
    cases hpay : readBytesAt file p0 hdr0.data_size with
    | none => rw [hpay] at h; exact Option.noConfusion h
    | some payload =>
      rw [hpay] at h
      rw [Option.some.injEq] at h
      subst h
      have hlen := readBytesAt_length _ _ _ _ hpay
      have hval := readBytesAt_val _ _ _ _ hpay
      refine ⟨rfl, ?_, hname, ?_, ?_⟩
      · rw [← hdo]
        exact hread
      · rw [hval, hdo]
      · rw [← hdo]
        exact hlen

/-- The C10 concrete file: a 16-byte ftyp atom followed by a 16-byte moov
atom containing a single 8-byte mvhd child. The moov payload starts at
absolute file offset 24. -/
def c10file : List Nat :=
  [0, 0, 0, 16, 102, 116, 121, 112, 0, 0, 0, 0, 0, 0, 0, 0,
   0, 0, 0, 16, 109, 111, 111, 118, 0, 0, 0, 8, 109, 118, 104, 100]

/-- C10 counterexample: on c10file the moov atom sits at offset 16 with
its payload at 24, yet the header the moov stream produces at cursor
position 0 (for the mvhd child, whose absolute file start is 24) records
offset 0: moov-stream headers carry payload-relative offsets, not
file-absolute ones. -/
theorem moov_stream_offset_cex :
    (withCapacity c10file).map (fun st => st.moovHdr.offset) = some 16
    ∧ (withCapacity c10file).map (fun st => st.moovHdr.data_offset) = some 24
    ∧ (withCapacity c10file).bind
        (fun st => (readHeader st.moovBytes 0).map (fun r => (r.1.name, r.1.offset)))
      = some (FourCC.Mvhd, 0)
    ∧ (0 : Nat) ≠ 24 := by decide

/-- C10 amended: a header read from the moov stream records the cursor
position within the moov payload as its offset; the same atom read
through the file stream carries the file-absolute offset, which exceeds
the moov-stream value by exactly the moov header's data_offset, so
moov-stream offsets are payload-relative and differ from the absolute
ones whenever data_offset is positive. -/
theorem moov_stream_offsets (file : List Nat) (st : Mp4Streams) (p : Nat)
    (hdr : AtomHeader) (q : Nat)
    (hw : withCapacity file = some st)
    (h : readHeader st.moovBytes p = some (hdr, q)) :
    hdr.offset = p
    ∧ readHeader file (st.moovHdr.data_offset + p)
        = some ({ hdr with offset := st.moovHdr.data_offset + p }, st.moovHdr.data_offset + q)
    ∧ (0 < st.moovHdr.data_offset → hdr.offset ≠ st.moovHdr.data_offset + p) := by
  obtain ⟨_, _, _, hbytes, hfit⟩ := withCapacity_spec file st hw
  obtain ⟨ho, _, _, _, _, _, _⟩ := readHeader_spec st.moovBytes p hdr q h
  rw [hbytes] at h
  refine ⟨ho, readHeader_shift file st.moovHdr.data_offset st.moovHdr.data_size p hfit hdr q h,
    fun hpos => ?_⟩
  omega

/-- The dual-stream state withCapacity builds for c10file. -/
def c10st : Mp4Streams :=
  { fileBytes := c10file,
    moovHdr := { atom_size := 16, name := FourCC.Moov, offset := 16, next := 0,
                 size_64bit := false },
    moovBytes := [0, 0, 0, 8, 109, 118, 104, 100] }

/-- The header the moov stream produces at cursor position 0 of c10st. -/
def mvhdHdrEx : AtomHeader :=
  { atom_size := 8, name := FourCC.Mvhd, offset := 0, next := 0, size_64bit := false }

/-- Witness for the C10 amended theorem on the concrete file. -/
theorem moov_stream_offsets_w :
    mvhdHdrEx.offset = 0
    ∧ readHeader c10file (c10st.moovHdr.data_offset + 0)
        = some ({ mvhdHdrEx with offset := c10st.moovHdr.data_offset + 0 },
            c10st.moovHdr.data_offset + 8)
    ∧ (0 < c10st.moovHdr.data_offset → mvhdHdrEx.offset ≠ c10st.moovHdr.data_offset + 0) :=
  moov_stream_offsets c10file c10st 0 mvhdHdrEx 8 (by decide) (by decide)

end Mp4Iter
